import Mathlib

/-!
Verification development for the laboratory roster generator
(`RosterEngine` and `validate_roster` in `src/main.py`).

The Python source is shallowly embedded: dates are triples of naturals
compared lexicographically with weekday/ordinal arithmetic matching the
proleptic Gregorian calendar used by Python's `datetime.date`; the mutable
per-staff schedule dictionary becomes a total function from staff codes to
arrays of optional duty codes, updated functionally; loops with
`break`/`continue` become folds whose step function returns the state
unchanged once the break condition holds (equivalent, since the remaining
iterations of the Python loop are never executed and the step is the
identity in exactly those cases).
-/

set_option maxHeartbeats 1000000

/-- Duty codes appearing in the roster grid (closed vocabulary of the
engine: `OH`, `PM`, `N`, `SD`, `DO`, `A`, `OH+EMD`, `OH+BIMA`). -/
inductive Duty where
  | OH
  | PM
  | N
  | SD
  | DO
  | A
  | OH_EMD
  | OH_BIMA
deriving DecidableEq, Repr

/-- A calendar date, mirroring Python's `datetime.date` (proleptic
Gregorian calendar; year/month/day as naturals). -/
structure Date where
  year : Nat
  month : Nat
  day : Nat
deriving DecidableEq, Repr

/-- Lexicographic order on dates: for valid Gregorian dates this is
exactly Python's `date.__le__`. -/
def Date.leb (a b : Date) : Bool :=
  a.year < b.year ||
    (a.year == b.year &&
      (a.month < b.month || (a.month == b.month && a.day ≤ b.day)))

/-- `True` for leap years, exactly the Gregorian rule used by
`datetime.date`. -/
def isLeap (y : Nat) : Bool :=
  (y % 4 == 0 && y % 100 != 0) || y % 400 == 0

/-- Month lengths of a (non-)leap year, January first. -/
def monthLengths (leap : Bool) : List Nat :=
  [31, if leap then 29 else 28, 31, 30, 31, 30, 31, 31, 30, 31, 30, 31]

/-- Number of days in all years before year `y` (proleptic Gregorian). -/
def daysBeforeYear (y : Nat) : Nat :=
  365 * (y - 1) + (y - 1) / 4 - (y - 1) / 100 + (y - 1) / 400

/-- Number of days in the months of year `y` strictly before month `m`. -/
def daysBeforeMonth (y m : Nat) : Nat :=
  ((monthLengths (isLeap y)).take (m - 1)).sum

/-- Proleptic-Gregorian ordinal of a date; `toOrdinal ⟨1,1,1⟩ = 1`,
matching Python's `date.toordinal`. -/
def Date.toOrdinal (d : Date) : Nat :=
  daysBeforeYear d.year + daysBeforeMonth d.year d.month + d.day

/-- Weekday with Monday = 0 .. Sunday = 6, matching Python's
`date.weekday()` (ordinal 1, i.e. 0001-01-01, is a Monday). -/
def Date.weekday (d : Date) : Nat :=
  (d.toOrdinal + 6) % 7

/-- English weekday names indexed by `Date.weekday`, as produced by
`strftime("%A")`. -/
def weekdayName (w : Nat) : String :=
  (["Monday", "Tuesday", "Wednesday", "Thursday", "Friday",
    "Saturday", "Sunday"]).getD w ""

def mkDate (y m d : Nat) : Date := ⟨y, m, d⟩

/-- `RosterEngine.get_days_in_month`: length of a month, computed in the
source as the ordinal difference between the first of the next month and
the first of this month. -/
def get_days_in_month (year month : Nat) : Nat :=
  let next : Date := if month == 12 then ⟨year + 1, 1, 1⟩ else ⟨year, month + 1, 1⟩
  next.toOrdinal - (Date.mk year month 1).toOrdinal

/-- The fields of a staff member's `shift_preference` dictionary that the
engine reads (`type`, `weekend_day`, `shuffle`, `night_emd`).  The source
dictionaries also carry `no_pm`, `no_emd`, `no_bima`, `pm_days` and
`oh_few` flags, but no code path of the engine ever reads those keys, so
they are omitted from the embedding. -/
structure ShiftPref where
  ptype : String
  weekend_day : Option String := none
  shuffle : Bool := false
  night_emd : Bool := false
deriving DecidableEq, Repr

/-- A staff entry: the fields of a `STAFF_DB` record read by the engine
(`code`, `night_eligible`, `shift_preference`; names, ids, roles and
sections are never read).  `pref = none` models a record without a
`shift_preference` key. -/
structure Staff where
  code : String
  night_eligible : Bool
  pref : Option ShiftPref := none
deriving DecidableEq, Repr

/-- The hardcoded `STAFF_DB` table, in source order. -/
def STAFF_DB : List Staff := [
  { code := "NJAM", night_eligible := false,
    pref := some { ptype := "strict_oh", weekend_day := some "Sunday" } },
  { code := "EKI", night_eligible := false,
    pref := some { ptype := "strict_oh", weekend_day := some "Saturday" } },
  { code := "KIS", night_eligible := false,
    pref := some { ptype := "strict_oh", weekend_day := some "Saturday" } },
  { code := "LOV", night_eligible := false,
    pref := some { ptype := "strict_oh", weekend_day := some "Saturday" } },
  { code := "CATH", night_eligible := false,
    pref := some { ptype := "strict_oh", weekend_day := some "Saturday" } },
  { code := "JOHA", night_eligible := false,
    pref := some { ptype := "strict_oh", weekend_day := some "Sunday" } },
  { code := "KHAD", night_eligible := false,
    pref := some { ptype := "strict_oh", weekend_day := some "Saturday" } },
  { code := "CELI", night_eligible := false,
    pref := some { ptype := "strict_oh", weekend_day := some "Saturday" } },
  { code := "TEKEL", night_eligible := false,
    pref := some { ptype := "strict_oh", weekend_day := some "Saturday" } },
  { code := "KATU", night_eligible := false,
    pref := some { ptype := "strict_oh", weekend_day := some "Sunday" } },
  { code := "MAY", night_eligible := false,
    pref := some { ptype := "strict_oh" } },
  { code := "BERTHA", night_eligible := false,
    pref := some { ptype := "strict_oh", weekend_day := some "Saturday" } },
  { code := "ASMA", night_eligible := false,
    pref := some { ptype := "strict_oh" } },
  { code := "OMAR", night_eligible := true,
    pref := some { ptype := "oh_weekdays_pm_weekends", shuffle := true } },
  { code := "AGRIPIN", night_eligible := false,
    pref := some { ptype := "oh_weekdays_pm_weekends", shuffle := true,
                   weekend_day := some "Saturday" } },
  { code := "NYAKUNGA", night_eligible := true,
    pref := some { ptype := "oh_weekdays_pm_sunday" } },
  { code := "MIK", night_eligible := true,
    pref := some { ptype := "emd_predominant", night_emd := true } },
  { code := "SANG", night_eligible := true,
    pref := some { ptype := "emd_predominant", night_emd := true } },
  { code := "FRANK", night_eligible := false,
    pref := some { ptype := "emd_predominant" } },
  { code := "JISKAKA", night_eligible := true,
    pref := some { ptype := "emd_predominant", weekend_day := some "Sunday" } },
  { code := "YSUPH", night_eligible := true,
    pref := some { ptype := "emd_predominant" } },
  { code := "DOREEN", night_eligible := true,
    pref := some { ptype := "pm_predominant" } },
  { code := "HAPPY", night_eligible := true,
    pref := some { ptype := "pm_predominant" } },
  { code := "VALENT", night_eligible := false,
    pref := some { ptype := "pm_predominant" } },
  { code := "GOD", night_eligible := true,
    pref := some { ptype := "night_predominant" } },
  { code := "JOSEPH", night_eligible := false,
    pref := some { ptype := "night_predominant" } },
  { code := "DATUS", night_eligible := true,
    pref := some { ptype := "night_predominant" } },
  { code := "NEEM", night_eligible := true,
    pref := some { ptype := "bima_predominant", weekend_day := some "Sunday" } },
  { code := "JENISTER", night_eligible := false,
    pref := some { ptype := "bima_predominant" } },
  { code := "MAR", night_eligible := false },
  { code := "SALOM", night_eligible := false },
  { code := "SHUW", night_eligible := false },
  { code := "PAUL", night_eligible := false }
]

/-- A `LEAVE_2026` record: staff code plus inclusive start and stop dates
(the source's `start`/`end` strings, parsed). -/
structure LeaveEntry where
  code : String
  start : Date
  stop : Date
deriving DecidableEq, Repr

/-- The hardcoded `LEAVE_2026` table, in source order. -/
def LEAVE_2026 : List LeaveEntry := [
  ⟨"LOV", ⟨2026, 5, 22⟩, ⟨2026, 6, 19⟩⟩,
  ⟨"OMAR", ⟨2026, 10, 19⟩, ⟨2026, 11, 16⟩⟩,
  ⟨"EKI", ⟨2026, 11, 30⟩, ⟨2026, 12, 28⟩⟩,
  ⟨"KIS", ⟨2026, 11, 16⟩, ⟨2026, 12, 14⟩⟩,
  ⟨"JOHA", ⟨2026, 12, 20⟩, ⟨2027, 1, 18⟩⟩,
  ⟨"NEEM", ⟨2026, 6, 12⟩, ⟨2026, 7, 10⟩⟩,
  ⟨"CATH", ⟨2026, 12, 14⟩, ⟨2027, 1, 10⟩⟩,
  ⟨"SALOM", ⟨2026, 12, 15⟩, ⟨2027, 1, 11⟩⟩,
  ⟨"CELI", ⟨2026, 12, 14⟩, ⟨2027, 1, 10⟩⟩,
  ⟨"GOD", ⟨2026, 11, 23⟩, ⟨2026, 12, 21⟩⟩,
  ⟨"TEKEL", ⟨2026, 12, 10⟩, ⟨2027, 1, 8⟩⟩,
  ⟨"VALENT", ⟨2026, 4, 6⟩, ⟨2026, 5, 4⟩⟩,
  ⟨"FRANK", ⟨2026, 9, 20⟩, ⟨2026, 10, 20⟩⟩,
  ⟨"MAY", ⟨2026, 12, 21⟩, ⟨2027, 1, 17⟩⟩,
  ⟨"KATU", ⟨2026, 11, 9⟩, ⟨2026, 12, 6⟩⟩,
  ⟨"JOSEPH", ⟨2026, 6, 30⟩, ⟨2026, 7, 28⟩⟩,
  ⟨"HAPPY", ⟨2026, 10, 20⟩, ⟨2026, 11, 17⟩⟩,
  ⟨"MAR", ⟨2026, 12, 21⟩, ⟨2027, 1, 17⟩⟩,
  ⟨"DATUS", ⟨2026, 12, 14⟩, ⟨2027, 1, 12⟩⟩,
  ⟨"SHUW", ⟨2026, 9, 10⟩, ⟨2026, 10, 8⟩⟩,
  ⟨"JENISTER", ⟨2026, 3, 30⟩, ⟨2026, 4, 27⟩⟩,
  ⟨"DOREEN", ⟨2026, 6, 28⟩, ⟨2026, 7, 28⟩⟩,
  ⟨"JISKAKA", ⟨2026, 12, 8⟩, ⟨2027, 7, 18⟩⟩,
  ⟨"YSUPH", ⟨2026, 6, 29⟩, ⟨2026, 7, 27⟩⟩,
  ⟨"AGRIPIN", ⟨2026, 6, 29⟩, ⟨2026, 7, 27⟩⟩,
  ⟨"KHAD", ⟨2026, 8, 3⟩, ⟨2026, 8, 31⟩⟩,
  ⟨"MIK", ⟨2026, 4, 13⟩, ⟨2026, 5, 4⟩⟩,
  ⟨"PAUL", ⟨2026, 6, 29⟩, ⟨2026, 7, 27⟩⟩
]

/-- Whether one leave record marks `current_date` as on-leave for
`staff_code`: the record's code matches and either
`start <= current_date <= end`, or `start.year > end.year` (year-wrap
sentinel) together with `current_date >= start or current_date <= end`. -/
def leaveHit (staff_code : String) (current_date : Date) (e : LeaveEntry) : Bool :=
  e.code == staff_code &&
    ((e.start.leb current_date && current_date.leb e.stop) ||
      (decide (e.stop.year < e.start.year) &&
        (e.start.leb current_date || current_date.leb e.stop)))

/-- `RosterEngine.is_on_leave`: scan the `LEAVE_2026` records and report
whether any of them marks the date as on-leave for the staff code. -/
def is_on_leave (staff_code : String) (current_date : Date) : Bool :=
  LEAVE_2026.any (leaveHit staff_code current_date)

/-- `RosterEngine.get_staff_preference`: the staff member's
`shift_preference` if present, else the `{"type": "default"}`
dictionary (also for codes absent from the staff table). -/
def get_staff_preference (code : String) : ShiftPref :=
  match STAFF_DB.find? (fun s => s.code == code) with
  | some s => s.pref.getD { ptype := "default" }
  | none => { ptype := "default" }

/-- The staff codes in configuration order (`self.staff.keys()`). -/
def staffCodes : List String := STAFF_DB.map (fun s => s.code)

/-- The night-eligible staff codes, in configuration order: the
`night_eligible` flag is set and the preference type is neither
`strict_oh` nor `pm_predominant`. -/
def night_eligible : List String :=
  staffCodes.filter (fun code =>
    (match STAFF_DB.find? (fun s => s.code == code) with
     | some s => s.night_eligible
     | none => false) &&
    !(["strict_oh", "pm_predominant"].contains (get_staff_preference code).ptype))

/-- The priority subset for the night phase: codes whose preference type
is `night_predominant` or `emd_predominant` and that are night
eligible, in configuration order. -/
def night_predominant : List String :=
  staffCodes.filter (fun code =>
    (["night_predominant", "emd_predominant"].contains (get_staff_preference code).ptype) &&
    night_eligible.contains code)

/-- Stable insertion of `x` into a list already sorted ascending by
`key`: `x` goes before the first element with a strictly larger key. -/
def insertKey (key : String → Nat) (x : String) : List String → List String
  | [] => [x]
  | y :: ys => if key x ≤ key y then x :: y :: ys else y :: insertKey key x ys

/-- Stable ascending sort by `key`.  Python's `sorted(..., key=...)` is a
stable sort, and a stable ascending sort of a list by a key is unique, so
this insertion sort produces exactly the candidate order of the source. -/
def sortByKey (key : String → Nat) (l : List String) : List String :=
  l.foldr (insertKey key) []

/-- A schedule cell: the entry of a staff member's schedule array at
index `i` (`none` outside the array, which never occurs in the source's
in-range accesses). -/
def cellOf (arr : Array (Option Duty)) (i : Nat) : Option Duty :=
  (arr[i]?).getD none

/-- The night-phase state: the per-staff schedule arrays (`schedule`) and
the per-staff night counters (`night_counts`).  The source keys both
dictionaries by staff code; they are modelled as total functions on
strings, read and written only at the keys the source uses. -/
structure NState where
  sched : String → Array (Option Duty)
  counts : String → Nat

/-- Pointwise update of a string-keyed function. -/
def updateFn {α : Type} (f : String → α) (k : String) (v : α) : String → α :=
  fun x => if x = k then v else f x

/-- The four-cell write of a freshly started night sequence:
`N, N, SD, DO` at days `d, d+1, d+2, d+3`. -/
def blockWrite (arr : Array (Option Duty)) (d : Nat) : Array (Option Duty) :=
  (((arr.setD d (some Duty.N)).setD (d + 1) (some Duty.N)).setD
      (d + 2) (some Duty.SD)).setD (d + 3) (some Duty.DO)

/-- The write of the `continue sequence` branch: `N` today, then `SD` and
`DO` on the next two days when they are still within the month. -/
def contWrite (arr : Array (Option Duty)) (d days : Nat) : Array (Option Duty) :=
  let a1 := arr.setD d (some Duty.N)
  let a2 := if d + 1 < days then a1.setD (d + 1) (some Duty.SD) else a1
  if d + 2 < days then a2.setD (d + 2) (some Duty.DO) else a2

/-- One candidate's step of the night-phase inner loop on `day`.  The
state carries the number of staff committed tonight (`assigned_tonight`);
the Python `break` at `assigned_tonight >= 2` is modelled by making the
step the identity from then on, and each `continue` by returning the
state reached so far. -/
def candStep (year month days day : Nat) (st : NState × Nat) (cand : String) :
    NState × Nat :=
  if 2 ≤ st.2 then st
  else if is_on_leave cand (mkDate year month (day + 1)) then st
  else if cellOf (st.1.sched cand) day ≠ none then st
  else if 0 < day ∧ cellOf (st.1.sched cand) (day - 1) = some Duty.N ∧
      ¬(1 < day ∧ cellOf (st.1.sched cand) (day - 2) = some Duty.N) then
    -- the `continue sequence` branch of the source
    (⟨updateFn st.1.sched cand (contWrite (st.1.sched cand) day days),
      updateFn st.1.counts cand (st.1.counts cand + 1)⟩, st.2 + 1)
  else if (day = 0 ∨ (cellOf (st.1.sched cand) (day - 1) ≠ some Duty.N ∧
        cellOf (st.1.sched cand) (day - 1) ≠ some Duty.SD)) ∧
      day + 3 < days ∧
      (∀ i < 4, cellOf (st.1.sched cand) (day + i) = none) ∧
      (∀ i < 4, ¬ is_on_leave cand (mkDate year month (day + i + 1))) then
    -- the new-sequence start
    (⟨updateFn st.1.sched cand (blockWrite (st.1.sched cand) day),
      updateFn st.1.counts cand (st.1.counts cand + 2)⟩, st.2 + 1)
  else st

/-- One day of the night phase: skip Sundays entirely; otherwise build
the candidate order (priority subset first, each group stably sorted
ascending by night counter) and walk it. -/
def dayStep (year month days : Nat) (ns : NState) (day : Nat) : NState :=
  if (mkDate year month (day + 1)).weekday = 6 then ns
  else
    ((sortByKey ns.counts (night_predominant.filter (fun c => night_eligible.contains c)) ++
      sortByKey ns.counts (night_eligible.filter (fun c => !(night_predominant.contains c)))).foldl
        (candStep year month days day) (ns, 0)).1

/-- The complete night phase (PHASE 1 of `RosterEngine.generate`): fold
the per-day step over the days of the month, starting from the all-empty
schedule and zero counters. -/
def nightPhase (year month : Nat) : NState :=
  let days := get_days_in_month year month
  (List.range days).foldl (dayStep year month days)
    ⟨fun _ => Array.mkArray days none, fun _ => 0⟩

set_option maxRecDepth 100000

/-- The preference-dispatch of PHASE 2 of `RosterEngine.generate`: the
duty code assigned to a cell that is neither on leave nor pre-filled by
the night phase, as a function of the preference, the staff code, the
zero-based day index and the weekday flags of the date. -/
def prefAssign (pref : ShiftPref) (code : String) (day : Nat)
    (is_weekend is_sunday is_saturday : Bool) : Duty :=
  if pref.ptype = "strict_oh" then
    if is_sunday then
      if pref.weekend_day = some "Sunday" then Duty.OH else Duty.DO
    else if is_saturday then
      if pref.weekend_day = some "Saturday" then Duty.OH else Duty.DO
    else Duty.OH
  else if pref.ptype = "oh_weekdays_pm_weekends" then
    if is_weekend then
      if pref.shuffle then
        if (day / 7) % 2 = 0 then
          if is_saturday then Duty.PM else Duty.DO
        else
          if is_sunday then Duty.PM else Duty.DO
      else Duty.PM
    else Duty.OH
  else if pref.ptype = "oh_weekdays_pm_sunday" then
    if is_sunday then Duty.PM
    else if is_saturday then Duty.DO
    else Duty.OH
  else if pref.ptype = "emd_predominant" then
    if is_sunday ∧ pref.weekend_day = some "Sunday" then Duty.OH
    else if is_saturday then Duty.DO
    else if pref.night_emd ∧ night_eligible.contains code then
      if day % 4 = 0 then Duty.OH_EMD else Duty.OH
    else
      if day % 2 = 0 then Duty.OH_EMD else Duty.OH
  else if pref.ptype = "pm_predominant" then
    if is_weekend then Duty.DO
    else if day % 3 ≠ 0 then Duty.PM else Duty.OH
  else if pref.ptype = "night_predominant" then
    if is_weekend then Duty.DO
    else if day % 3 = 0 then Duty.OH else Duty.DO
  else if pref.ptype = "bima_predominant" then
    if is_sunday ∧ pref.weekend_day = some "Sunday" then Duty.OH
    else if is_saturday then Duty.DO
    else Duty.OH_BIMA
  else
    if is_sunday then Duty.DO
    else if is_saturday then Duty.DO
    else Duty.OH

/-- The complete per-cell assignment of PHASE 2: leave wins (`A`), then a
night-phase pre-fill is used unchanged, then the preference dispatch. -/
def assignFor (sched : String → Array (Option Duty)) (year month day : Nat)
    (code : String) : Duty :=
  let current := mkDate year month (day + 1)
  if is_on_leave code current then Duty.A
  else
    match cellOf (sched code) day with
    | some v => v
    | none =>
        prefAssign (get_staff_preference code) code day
          (decide (5 ≤ current.weekday)) (decide (current.weekday = 6))
          (decide (current.weekday = 5))

/-- One generated day row (`day_entry` of the source, sans the redundant
ISO string of the date). -/
structure DayEntry where
  date : Date
  day_name : String
  day_number : Nat
  is_weekend : Bool
  is_sunday : Bool
  is_saturday : Bool
  assignments : List (String × Duty)
deriving DecidableEq, Repr

/-- Build the day row for zero-based day index `day`: metadata plus one
assignment per staff member, in configuration order. -/
def mkDayEntry (sched : String → Array (Option Duty)) (year month day : Nat) :
    DayEntry :=
  let current := mkDate year month (day + 1)
  { date := current
    day_name := weekdayName current.weekday
    day_number := day + 1
    is_weekend := decide (5 ≤ current.weekday)
    is_sunday := decide (current.weekday = 6)
    is_saturday := decide (current.weekday = 5)
    assignments := STAFF_DB.map (fun s => (s.code, assignFor sched year month day s.code)) }

/-- `shift_counts[shift] = shift_counts.get(shift, 0) + 1` on an
insertion-ordered dictionary modelled as an association list. -/
def bump (m : List (Duty × Nat)) (k : Duty) : List (Duty × Nat) :=
  match m with
  | [] => [(k, 1)]
  | (k', v) :: rest => if k' = k then (k', v + 1) :: rest else (k', v) :: bump rest k

/-- The shift-distribution tally: every assignment of every day row bumps
its duty code's counter. -/
def shiftCounts (roster : List DayEntry) : List (Duty × Nat) :=
  roster.foldl (fun m de => de.assignments.foldl (fun m p => bump m p.2) m) []

/-- The result of `RosterEngine.generate` (the month/year echo, the grid,
and the aggregate statistics; the purely decorative metadata strings are
omitted). -/
structure RosterResult where
  month : Nat
  year : Nat
  total_days : Nat
  total_staff : Nat
  shift_distribution : List (Duty × Nat)
  night_shift_distribution : List (String × Nat)
  roster : List DayEntry
deriving DecidableEq, Repr

/-- `RosterEngine.generate`: the night phase, then the preference fill
over every day and staff member, then the statistics. -/
def generate (month year : Nat) : RosterResult :=
  let days := get_days_in_month year month
  let ns := nightPhase year month
  let roster := (List.range days).map (mkDayEntry ns.sched year month)
  { month := month
    year := year
    total_days := days
    total_staff := STAFF_DB.length
    shift_distribution := shiftCounts roster
    night_shift_distribution := night_eligible.map (fun c => (c, ns.counts c))
    roster := roster }

/-- First-match lookup in an association list (Python dictionary read). -/
def alookup {α : Type} : List (String × α) → String → Option α
  | [], _ => none
  | (k, v) :: t, c => if k = c then some v else alookup t c

/-- A day record of a grid handed to `validate_roster`: the date string
and the staff → duty-string assignment dictionary.  Values are plain
strings, as in the JSON input of the endpoint. -/
structure VDay where
  date : String
  assignments : List (String × String)
deriving DecidableEq, Repr

/-- A violation record produced by the `night_pattern` rule. -/
structure Violation where
  vtype : String
  staff : String
  date : String
  expected : String
  actual : String
deriving DecidableEq, Repr

/-- Python's `str(x)` on an optional string (`None` prints as "None"),
used to format the `actual` field. -/
def optStr : Option String → String
  | some s => s
  | none => "None"

/-- The violations produced by examining one cell `(code, shift)` of the
day at index `day_idx` under the `night_pattern` rule: an `N` whose three
following days exist is checked against `[N, SD, DO]`, with a following
`A` accepted as an interruption. -/
def cellViol (roster : List VDay) (day_idx : Nat) (day : VDay)
    (p : String × String) : List Violation :=
  if p.2 = "N" ∧ day_idx + 3 < roster.length then
    if ¬([alookup (roster.getD (day_idx + 1) ⟨"", []⟩).assignments p.1,
          alookup (roster.getD (day_idx + 2) ⟨"", []⟩).assignments p.1,
          alookup (roster.getD (day_idx + 3) ⟨"", []⟩).assignments p.1] =
          [some "N", some "SD", some "DO"]) ∧
        alookup (roster.getD (day_idx + 1) ⟨"", []⟩).assignments p.1 ≠ some "A" then
      [{ vtype := "night_pattern", staff := p.1, date := day.date,
         expected := "N,SD,DO",
         actual := optStr (alookup (roster.getD (day_idx + 1) ⟨"", []⟩).assignments p.1)
           ++ "," ++ optStr (alookup (roster.getD (day_idx + 2) ⟨"", []⟩).assignments p.1)
           ++ "," ++ optStr (alookup (roster.getD (day_idx + 3) ⟨"", []⟩).assignments p.1) }]
    else []
  else []

/-- The violations contributed by all cells of the day at index
`day_idx`, appended in cell order (the source appends each violation to
the shared list as the inner loop runs). -/
def dayViolations (roster : List VDay) (day_idx : Nat) (day : VDay) :
    List Violation :=
  day.assignments.foldl (fun acc p => acc ++ cellViol roster day_idx day p) []

/-- The result dictionary of the `validate_roster` endpoint. -/
structure VResult where
  valid : Bool
  violations : List Violation
  checks_performed : List String
deriving DecidableEq, Repr

/-- `validate_roster`: run the `night_pattern` rule (the only rule with
logic) over every day of the grid in order, collecting violations. -/
def validate_roster (roster : List VDay) (rules : List String) : VResult :=
  let violations :=
    if rules.contains "night_pattern" then
      (roster.enum).foldl (fun acc p => acc ++ dayViolations roster p.1 p.2) []
    else []
  { valid := violations.length == 0
    violations := violations
    checks_performed := rules }

/-! ## Specification predicates over night-phase schedules -/

/-- A complete committed night sequence at day `d`: the four cells
`d .. d+3` hold `N, N, SD, DO` and the whole block lies inside the
month. -/
def BlockAt (arr : Array (Option Duty)) (d : Nat) : Prop :=
  d + 3 < arr.size ∧ cellOf arr d = some Duty.N ∧
    cellOf arr (d + 1) = some Duty.N ∧ cellOf arr (d + 2) = some Duty.SD ∧
    cellOf arr (d + 3) = some Duty.DO

instance (arr : Array (Option Duty)) (d : Nat) : Decidable (BlockAt arr d) := by
  unfold BlockAt; exact inferInstance

/-- Day `d` is the start of a night sequence in the schedule: it holds
`N` and is not preceded by an `N`. -/
def IsStartP (arr : Array (Option Duty)) (d : Nat) : Prop :=
  cellOf arr d = some Duty.N ∧ (d = 0 ∨ cellOf arr (d - 1) ≠ some Duty.N)

instance (arr : Array (Option Duty)) (d : Nat) : Decidable (IsStartP arr d) := by
  unfold IsStartP; exact inferInstance

/-- The number of night-sequence starts visible in a schedule array. -/
def numStarts (arr : Array (Option Duty)) : Nat :=
  ((Finset.range arr.size).filter (fun d => IsStartP arr d)).card

/-- Every filled cell of the schedule belongs to a complete block. -/
def Blocky (arr : Array (Option Duty)) : Prop :=
  ∀ j, cellOf arr j ≠ none → ∃ d, BlockAt arr d ∧ d ≤ j ∧ j ≤ d + 3

/-- The schedule invariant of the night phase: correct length, every
filled cell inside a complete block, and no start on a Sunday. -/
def GoodArr (year month days : Nat) (arr : Array (Option Duty)) : Prop :=
  arr.size = days ∧ Blocky arr ∧
    ∀ d, IsStartP arr d → (mkDate year month (d + 1)).weekday ≠ 6

/-- The full night-phase invariant: every staff schedule is good and
every night counter is exactly twice the number of starts placed. -/
def InvN (year month days : Nat) (ns : NState) : Prop :=
  ∀ c, GoodArr year month days (ns.sched c) ∧
    ns.counts c = 2 * numStarts (ns.sched c)

/-- The state of the night phase just before day `k` is processed. -/
def nightPhaseUpTo (year month k : Nat) : NState :=
  (List.range k).foldl (dayStep year month (get_days_in_month year month))
    ⟨fun _ => Array.mkArray (get_days_in_month year month) none, fun _ => 0⟩

/-- The total number of committed night-sequence starts over a set of
staff codes. -/
def totalStarts (S : Finset String) (ns : NState) : Nat :=
  S.sum (fun c => numStarts (ns.sched c))

/-- The assignment recorded for staff code `c` on the day row at index
`i` of a generated roster. -/
def rosterAssign (r : RosterResult) (i : Nat) (c : String) : Option Duty :=
  match r.roster[i]? with
  | some de => alookup de.assignments c
  | none => none

/-- The sum of the per-code counters of a shift-distribution table. -/
def sumValues (l : List (Duty × Nat)) : Nat := (l.map (fun p => p.2)).sum

/-- The specification-side date order: `a` is on or before `b` in the
calendar (lexicographic on valid dates, as `datetime.date` compares). -/
def Date.Le (a b : Date) : Prop :=
  a.year < b.year ∨ (a.year = b.year ∧
    (a.month < b.month ∨ (a.month = b.month ∧ a.day ≤ b.day)))

instance (a b : Date) : Decidable (Date.Le a b) := by
  unfold Date.Le
  exact inferInstance

/-- A counterexample grid for the literal reading of C6: staff `X` has a
day (`index 0`) holding `N` followed by exactly `N, SD, DO`, yet the
grid as a whole does not validate clean for `X`, because the second `N`
(index 1) is followed by `SD, DO, OH`. -/
def cexGrid : List VDay :=
  [⟨"2026-01-01", [("X", "N")]⟩, ⟨"2026-01-02", [("X", "N")]⟩,
   ⟨"2026-01-03", [("X", "SD")]⟩, ⟨"2026-01-04", [("X", "DO")]⟩,
   ⟨"2026-01-05", [("X", "OH")]⟩, ⟨"2026-01-06", [("X", "OH")]⟩,
   ⟨"2026-01-07", [("X", "OH")]⟩]

/-! ## Cell arithmetic -/

theorem cellOf_setD_same {arr : Array (Option Duty)} {i : Nat} {v : Option Duty}
    (h : i < arr.size) : cellOf (arr.setD i v) i = v := by
  unfold cellOf
  rw [Array.getElem?_setD_eq arr h]
  rfl

theorem cellOf_setD_other {arr : Array (Option Duty)} {i j : Nat} {v : Option Duty}
    (h : i ≠ j) : cellOf (arr.setD i v) j = cellOf arr j := by
  unfold cellOf Array.setD
  split
  · rw [Array.getElem?_set_ne]
    exact h
  · rfl

theorem cellOf_mkArray_none (days j : Nat) :
    cellOf (Array.mkArray days (none : Option Duty)) j = none := by
  unfold cellOf
  rw [Array.getElem?_mkArray]
  split <;> rfl

theorem numStarts_mkArray_none (days : Nat) :
    numStarts (Array.mkArray days (none : Option Duty)) = 0 := by
  unfold numStarts
  rw [Finset.card_eq_zero, Finset.filter_eq_empty_iff]
  intro d _
  intro hstart
  have := hstart.1
  rw [cellOf_mkArray_none] at this
  exact Option.noConfusion this

theorem goodArr_mkArray (year month days : Nat) :
    GoodArr year month days (Array.mkArray days (none : Option Duty)) := by
  refine ⟨Array.size_mkArray days none, ?_, ?_⟩
  · intro j hj
    exact absurd (cellOf_mkArray_none days j) hj
  · intro d hd
    have := hd.1
    rw [cellOf_mkArray_none] at this
    exact Option.noConfusion this

theorem invN_init (year month days : Nat) :
    InvN year month days ⟨fun _ => Array.mkArray days none, fun _ => 0⟩ := by
  intro c
  exact ⟨goodArr_mkArray year month days, by simp [numStarts_mkArray_none]⟩

theorem size_blockWrite (arr : Array (Option Duty)) (d : Nat) :
    (blockWrite arr d).size = arr.size := by
  simp [blockWrite]

/-- Cells outside `[d, d+3]` are untouched by a block write. -/
theorem cellOf_blockWrite_other {arr : Array (Option Duty)} {d j : Nat}
    (h : j < d ∨ d + 3 < j) : cellOf (blockWrite arr d) j = cellOf arr j := by
  unfold blockWrite
  rw [cellOf_setD_other (by omega), cellOf_setD_other (by omega),
    cellOf_setD_other (by omega), cellOf_setD_other (by omega)]

/-- The four cells written by a block write. -/
theorem cellOf_blockWrite_at (arr : Array (Option Duty)) (d : Nat)
    (h : d + 3 < arr.size) :
    cellOf (blockWrite arr d) d = some Duty.N ∧
    cellOf (blockWrite arr d) (d + 1) = some Duty.N ∧
    cellOf (blockWrite arr d) (d + 2) = some Duty.SD ∧
    cellOf (blockWrite arr d) (d + 3) = some Duty.DO := by
  unfold blockWrite
  have hsz : ∀ (a : Array (Option Duty)) (i : Nat) (v : Option Duty) (j : Nat),
      j < a.size → j < (a.setD i v).size := by
    intro a i v j hj
    simpa using hj
  refine ⟨?_, ?_, ?_, ?_⟩
  · rw [cellOf_setD_other (by omega), cellOf_setD_other (by omega),
      cellOf_setD_other (by omega), cellOf_setD_same (by omega)]
  · rw [cellOf_setD_other (by omega), cellOf_setD_other (by omega),
      cellOf_setD_same (hsz _ _ _ _ (by omega))]
  · rw [cellOf_setD_other (by omega),
      cellOf_setD_same (hsz _ _ _ _ (hsz _ _ _ _ (by omega)))]
  · rw [cellOf_setD_same (hsz _ _ _ _ (hsz _ _ _ _ (hsz _ _ _ _ (by omega))))]

theorem blockAt_blockWrite (arr : Array (Option Duty)) (d : Nat)
    (h : d + 3 < arr.size) : BlockAt (blockWrite arr d) d := by
  obtain ⟨h0, h1, h2, h3⟩ := cellOf_blockWrite_at arr d h
  exact ⟨by rw [size_blockWrite]; exact h, h0, h1, h2, h3⟩

/-- Under `Blocky`, an empty cell is never preceded by `N` or `SD`: the
predecessor of an empty cell can only be the last cell (`DO`) of a block
or empty itself.  This makes the source's `continue sequence` branch
unreachable. -/
theorem blocky_prev_cases {arr : Array (Option Duty)} (hB : Blocky arr) {day : Nat}
    (hday : 0 < day) (hempty : cellOf arr day = none) :
    cellOf arr (day - 1) ≠ some Duty.N ∧ cellOf arr (day - 1) ≠ some Duty.SD := by
  constructor <;> intro h
  · have hne : cellOf arr (day - 1) ≠ none := by rw [h]; exact fun hc => Option.noConfusion hc
    obtain ⟨d, ⟨hsize, hc0, hc1, hc2, hc3⟩, hd1, hd2⟩ := hB _ hne
    have hcases : day - 1 = d ∨ day - 1 = d + 1 ∨ day - 1 = d + 2 ∨ day - 1 = d + 3 := by
      omega
    rcases hcases with h' | h' | h' | h'
    · have hd : day = d + 1 := by omega
      rw [hd, hc1] at hempty
      exact Option.noConfusion hempty
    · have hd : day = d + 2 := by omega
      rw [hd, hc2] at hempty
      exact Option.noConfusion hempty
    · rw [h', hc2] at h
      exact Duty.noConfusion (Option.some.inj h)
    · rw [h', hc3] at h
      exact Duty.noConfusion (Option.some.inj h)
  · have hne : cellOf arr (day - 1) ≠ none := by rw [h]; exact fun hc => Option.noConfusion hc
    obtain ⟨d, ⟨hsize, hc0, hc1, hc2, hc3⟩, hd1, hd2⟩ := hB _ hne
    have hcases : day - 1 = d ∨ day - 1 = d + 1 ∨ day - 1 = d + 2 ∨ day - 1 = d + 3 := by
      omega
    rcases hcases with h' | h' | h' | h'
    · rw [h', hc0] at h
      exact Duty.noConfusion (Option.some.inj h)
    · rw [h', hc1] at h
      exact Duty.noConfusion (Option.some.inj h)
    · have hd : day = d + 3 := by omega
      rw [hd, hc3] at hempty
      exact Option.noConfusion hempty
    · rw [h', hc3] at h
      exact Duty.noConfusion (Option.some.inj h)

/-- A block write into four empty cells leaves every previously filled
cell unchanged. -/
theorem cellOf_blockWrite_of_filled {arr : Array (Option Duty)} {d : Nat}
    (hnone : ∀ i < 4, cellOf arr (d + i) = none) {p : Nat}
    (hp : cellOf arr p ≠ none) :
    cellOf (blockWrite arr d) p = cellOf arr p := by
  apply cellOf_blockWrite_other
  by_contra hc
  push_neg at hc
  have hlt : p - d < 4 := by omega
  have := hnone (p - d) hlt
  have hpd : d + (p - d) = p := by omega
  rw [hpd] at this
  exact hp this

theorem blocky_blockWrite {arr : Array (Option Duty)} {d : Nat} (hB : Blocky arr)
    (hsize : d + 3 < arr.size) (hnone : ∀ i < 4, cellOf arr (d + i) = none) :
    Blocky (blockWrite arr d) := by
  intro j hj
  by_cases hcase : d ≤ j ∧ j ≤ d + 3
  · exact ⟨d, blockAt_blockWrite arr d hsize, hcase.1, hcase.2⟩
  · have hj' : cellOf (blockWrite arr d) j = cellOf arr j :=
      cellOf_blockWrite_other (by omega)
    rw [hj'] at hj
    obtain ⟨d', ⟨hs', hb0, hb1, hb2, hb3⟩, h1, h2⟩ := hB j hj
    refine ⟨d', ⟨by rw [size_blockWrite]; exact hs', ?_, ?_, ?_, ?_⟩, h1, h2⟩
    · rw [cellOf_blockWrite_of_filled hnone (by rw [hb0]; exact fun hc => Option.noConfusion hc)]
      exact hb0
    · rw [cellOf_blockWrite_of_filled hnone (by rw [hb1]; exact fun hc => Option.noConfusion hc)]
      exact hb1
    · rw [cellOf_blockWrite_of_filled hnone (by rw [hb2]; exact fun hc => Option.noConfusion hc)]
      exact hb2
    · rw [cellOf_blockWrite_of_filled hnone (by rw [hb3]; exact fun hc => Option.noConfusion hc)]
      exact hb3

/-- Under `Blocky`, a start day in the schedule carries a complete
block. -/
theorem blockAt_of_isStart {arr : Array (Option Duty)} (hB : Blocky arr) {d : Nat}
    (h : IsStartP arr d) : BlockAt arr d := by
  obtain ⟨hN, hprev⟩ := h
  have hne : cellOf arr d ≠ none := by rw [hN]; exact fun hc => Option.noConfusion hc
  obtain ⟨d', hb, hd1, hd2⟩ := hB d hne
  obtain ⟨hs', hb0, hb1, hb2, hb3⟩ := hb
  have hcases : d = d' ∨ d = d' + 1 ∨ d = d' + 2 ∨ d = d' + 3 := by omega
  rcases hcases with h' | h' | h' | h'
  · rw [h']
    exact ⟨hs', hb0, hb1, hb2, hb3⟩
  · exfalso
    rcases hprev with h0 | hpn
    · omega
    · rw [h'] at hpn
      simp only [Nat.add_sub_cancel] at hpn
      exact hpn hb0
  · rw [h', hb2] at hN
    exact Duty.noConfusion (Option.some.inj hN)
  · rw [h', hb3] at hN
    exact Duty.noConfusion (Option.some.inj hN)

/-- Starts after a block write: exactly the old starts plus the new day. -/
theorem isStart_blockWrite_iff {arr : Array (Option Duty)} {d : Nat} (hB : Blocky arr)
    (hsize : d + 3 < arr.size) (hnone : ∀ i < 4, cellOf arr (d + i) = none) (j : Nat) :
    IsStartP (blockWrite arr d) j ↔ (j = d ∨ IsStartP arr j) := by
  obtain ⟨w0, w1, w2, w3⟩ := cellOf_blockWrite_at arr d hsize
  have hd0 : cellOf arr d = none := by simpa using hnone 0 (by omega)
  have hd1 : cellOf arr (d + 1) = none := hnone 1 (by omega)
  have hd2 : cellOf arr (d + 2) = none := hnone 2 (by omega)
  have hd3 : cellOf arr (d + 3) = none := hnone 3 (by omega)
  rcases Nat.lt_or_ge j d with hj | hj
  · -- below the block: both cells and predecessors are unchanged
    have hc : cellOf (blockWrite arr d) j = cellOf arr j :=
      cellOf_blockWrite_other (Or.inl hj)
    have hp : cellOf (blockWrite arr d) (j - 1) = cellOf arr (j - 1) :=
      cellOf_blockWrite_other (Or.inl (by omega))
    unfold IsStartP
    rw [hc, hp]
    constructor
    · exact fun h => Or.inr h
    · rintro (h | h)
      · omega
      · exact h
  · rcases Nat.lt_or_ge (d + 4) j with hj4 | hj4
    · -- above the block (j ≥ d + 5)
      have hc : cellOf (blockWrite arr d) j = cellOf arr j :=
        cellOf_blockWrite_other (Or.inr (by omega))
      have hp : cellOf (blockWrite arr d) (j - 1) = cellOf arr (j - 1) :=
        cellOf_blockWrite_other (Or.inr (by omega))
      unfold IsStartP
      rw [hc, hp]
      constructor
      · exact fun h => Or.inr h
      · rintro (h | h)
        · omega
        · exact h
    · -- j ∈ [d, d + 4]
      have hcases : j = d ∨ j = d + 1 ∨ j = d + 2 ∨ j = d + 3 ∨ j = d + 4 := by omega
      rcases hcases with h' | h' | h' | h' | h'
      · subst h'
        constructor
        · intro _
          exact Or.inl rfl
        · intro _
          refine ⟨w0, ?_⟩
          rcases Nat.eq_zero_or_pos j with h0 | hpos
          · exact Or.inl h0
          · right
            have : cellOf (blockWrite arr j) (j - 1) = cellOf arr (j - 1) :=
              cellOf_blockWrite_other (Or.inl (by omega))
            rw [this]
            exact (blocky_prev_cases hB hpos hd0).1
      · subst h'
        constructor
        · rintro ⟨_, hprev⟩
          exfalso
          rcases hprev with h0 | hpn
          · omega
          · simp only [Nat.add_sub_cancel] at hpn
            exact hpn w0
        · rintro (h | h)
          · omega
          · exact absurd h.1 (by rw [hd1]; exact fun hc => Option.noConfusion hc)
      · subst h'
        constructor
        · intro h
          have h1 := h.1
          rw [w2] at h1
          exact absurd (Option.some.inj h1) (fun hc => Duty.noConfusion hc)
        · rintro (h | h)
          · omega
          · exact absurd h.1 (by rw [hd2]; exact fun hc => Option.noConfusion hc)
      · subst h'
        constructor
        · intro h
          have h1 := h.1
          rw [w3] at h1
          exact absurd (Option.some.inj h1) (fun hc => Duty.noConfusion hc)
        · rintro (h | h)
          · omega
          · exact absurd h.1 (by rw [hd3]; exact fun hc => Option.noConfusion hc)
      · subst h'
        have hc : cellOf (blockWrite arr d) (d + 4) = cellOf arr (d + 4) :=
          cellOf_blockWrite_other (Or.inr (by omega))
        have hp4 : d + 4 - 1 = d + 3 := by omega
        unfold IsStartP
        rw [hc, hp4, w3, hd3]
        constructor
        · intro h
          exact Or.inr ⟨h.1, Or.inr (fun hc => Option.noConfusion hc)⟩
        · rintro (h | h)
          · omega
          · exact ⟨h.1, Or.inr (fun hc => Duty.noConfusion (Option.some.inj hc))⟩

/-- A block write adds exactly one start. -/
theorem numStarts_blockWrite {arr : Array (Option Duty)} {d : Nat} (hB : Blocky arr)
    (hsize : d + 3 < arr.size) (hnone : ∀ i < 4, cellOf arr (d + i) = none) :
    numStarts (blockWrite arr d) = numStarts arr + 1 := by
  unfold numStarts
  rw [size_blockWrite]
  have hset : (Finset.range arr.size).filter (fun j => IsStartP (blockWrite arr d) j) =
      insert d ((Finset.range arr.size).filter (fun j => IsStartP arr j)) := by
    ext x
    simp only [Finset.mem_filter, Finset.mem_insert, Finset.mem_range]
    constructor
    · rintro ⟨hx, hs⟩
      rcases (isStart_blockWrite_iff hB hsize hnone x).1 hs with h | h
      · exact Or.inl h
      · exact Or.inr ⟨hx, h⟩
    · rintro (h | ⟨hx, hs⟩)
      · subst h
        exact ⟨by omega, (isStart_blockWrite_iff hB hsize hnone x).2 (Or.inl rfl)⟩
      · exact ⟨hx, (isStart_blockWrite_iff hB hsize hnone x).2 (Or.inr hs)⟩
  rw [hset, Finset.card_insert_of_not_mem]
  simp only [Finset.mem_filter, Finset.mem_range, not_and]
  intro _
  intro hs
  have hd0 : cellOf arr d = none := by simpa using hnone 0 (by omega)
  have hs1 := hs.1
  rw [hd0] at hs1
  exact Option.noConfusion hs1

theorem updateFn_same {α : Type} (f : String → α) (k : String) (v : α) :
    updateFn f k v k = v := by
  simp [updateFn]

theorem updateFn_other {α : Type} (f : String → α) {k x : String} (v : α)
    (h : x ≠ k) : updateFn f k v x = f x := by
  simp [updateFn, h]


/-- The candidate step preserves the night-phase invariant, increments
the per-day commitment counter at most once, is the identity once the
2-slot cap is reached, and changes the total number of starts by exactly
the amount the commitment counter grows. -/
theorem candStep_good (year month days day : Nat)
    (hsun : (mkDate year month (day + 1)).weekday ≠ 6)
    (ns : NState) (a : Nat) (cand : String)
    (hInv : InvN year month days ns) :
    InvN year month days (candStep year month days day (ns, a) cand).1 ∧
    (candStep year month days day (ns, a) cand).2 ≤ a + 1 ∧
    (2 ≤ a → candStep year month days day (ns, a) cand = (ns, a)) ∧
    ∀ S : Finset String, cand ∈ S →
      totalStarts S (candStep year month days day (ns, a) cand).1 + a =
        totalStarts S ns + (candStep year month days day (ns, a) cand).2 := by
  unfold candStep
  split_ifs with h1 h2 h3 h4 h5
  · exact ⟨hInv, by omega, fun _ => rfl, fun S _ => rfl⟩
  · exact ⟨hInv, by omega, fun _ => rfl, fun S _ => rfl⟩
  · exact ⟨hInv, by omega, fun _ => rfl, fun S _ => rfl⟩
  · -- the continuation branch is unreachable under the invariant
    exfalso
    have hcell : cellOf (ns.sched cand) day = none := not_not.mp h3
    exact (blocky_prev_cases (hInv cand).1.2.1 h4.1 hcell).1 h4.2.1
  · -- a new sequence start
    obtain ⟨hcan, hdays, hnone, hlv⟩ := h5
    have hsize' : day + 3 < (ns.sched cand).size := by
      rw [(hInv cand).1.1]
      exact hdays
    have hB : Blocky (ns.sched cand) := (hInv cand).1.2.1
    refine ⟨?_, by omega, fun hc => absurd hc h1, ?_⟩
    · intro c
      by_cases hc : c = cand
      · subst hc
        constructor
        · refine ⟨?_, ?_, ?_⟩
          · show (updateFn ns.sched c (blockWrite (ns.sched c) day) c).size = days
            rw [updateFn_same, size_blockWrite]
            exact (hInv c).1.1
          · show Blocky (updateFn ns.sched c (blockWrite (ns.sched c) day) c)
            rw [updateFn_same]
            exact blocky_blockWrite hB hsize' hnone
          · intro d' hd'
            have hd2 : IsStartP (updateFn ns.sched c (blockWrite (ns.sched c) day) c) d' := hd'
            rw [updateFn_same] at hd2
            rcases (isStart_blockWrite_iff hB hsize' hnone d').1 hd2 with h' | h'
            · subst h'
              exact hsun
            · exact (hInv c).1.2.2 d' h'
        · show updateFn ns.counts c (ns.counts c + 2) c =
            2 * numStarts (updateFn ns.sched c (blockWrite (ns.sched c) day) c)
          rw [updateFn_same, updateFn_same, numStarts_blockWrite hB hsize' hnone]
          have := (hInv c).2
          omega
      · constructor
        · show GoodArr year month days (updateFn ns.sched cand _ c)
          rw [updateFn_other _ _ hc]
          exact (hInv c).1
        · show updateFn ns.counts cand _ c =
            2 * numStarts (updateFn ns.sched cand _ c)
          rw [updateFn_other _ _ hc, updateFn_other _ _ hc]
          exact (hInv c).2
    · intro S hS
      have hpt : ∀ c ∈ S,
          numStarts ((updateFn ns.sched cand (blockWrite (ns.sched cand) day)) c) =
            numStarts (ns.sched c) + if c = cand then 1 else 0 := by
        intro c _
        by_cases hc : c = cand
        · subst hc
          rw [updateFn_same, numStarts_blockWrite hB hsize' hnone, if_pos rfl]
        · rw [updateFn_other _ _ hc, if_neg hc]
          omega
      show totalStarts S ⟨updateFn ns.sched cand _, updateFn ns.counts cand _⟩ + a =
        totalStarts S ns + (a + 1)
      unfold totalStarts
      rw [Finset.sum_congr rfl hpt, Finset.sum_add_distrib,
        Finset.sum_ite_eq' S cand (fun _ => 1), if_pos hS]
      omega
  · exact ⟨hInv, by omega, fun _ => rfl, fun S _ => rfl⟩

theorem mem_insertKey {key : String → Nat} {x y : String} : ∀ {l : List String},
    y ∈ insertKey key x l → y = x ∨ y ∈ l
  | [], h => by
      rw [insertKey.eq_1, List.mem_singleton] at h
      exact Or.inl h
  | z :: zs, h => by
      simp only [insertKey] at h
      by_cases hle : key x ≤ key z
      · rw [if_pos hle] at h
        rcases List.mem_cons.1 h with h1 | h1
        · exact Or.inl h1
        · exact Or.inr h1
      · rw [if_neg hle] at h
        rcases List.mem_cons.1 h with h1 | h1
        · exact Or.inr (by simp [h1])
        · rcases mem_insertKey h1 with h2 | h2
          · exact Or.inl h2
          · exact Or.inr (List.mem_cons_of_mem z h2)

theorem mem_sortByKey {key : String → Nat} {y : String} {l : List String}
    (h : y ∈ sortByKey key l) : y ∈ l := by
  induction l with
  | nil => exact absurd h (by simp [sortByKey])
  | cons z zs ih =>
      have h' : y ∈ insertKey key z (sortByKey key zs) := h
      rcases mem_insertKey h' with h'' | h''
      · simp [h'']
      · exact List.mem_cons_of_mem z (ih h'')

/-- Folding the candidate step over any candidate list drawn from `S`
preserves the invariant, respects the 2-slot cap, and grows the total
number of starts by exactly the growth of the commitment counter. -/
theorem foldl_candStep_good (year month days day : Nat)
    (hsun : (mkDate year month (day + 1)).weekday ≠ 6) (S : Finset String) :
    ∀ (l : List String), (∀ c ∈ l, c ∈ S) → ∀ (st : NState × Nat),
      InvN year month days st.1 → st.2 ≤ 2 →
      InvN year month days (l.foldl (candStep year month days day) st).1 ∧
      (l.foldl (candStep year month days day) st).2 ≤ 2 ∧
      totalStarts S (l.foldl (candStep year month days day) st).1 + st.2 =
        totalStarts S st.1 + (l.foldl (candStep year month days day) st).2 := by
  intro l
  induction l with
  | nil => exact fun _ st hI hc => ⟨hI, hc, rfl⟩
  | cons c t ih =>
      intro hmem st hI hc
      obtain ⟨ns, a⟩ := st
      obtain ⟨hI', hle, hcap, hsum⟩ := candStep_good year month days day hsun ns a c hI
      have hc' : (candStep year month days day (ns, a) c).2 ≤ 2 := by
        rcases Nat.lt_or_ge a 2 with h | h
        · omega
        · rw [hcap (by omega)]
          exact hc
      have hmem' : ∀ x ∈ t, x ∈ S := fun x hx => hmem x (List.mem_cons_of_mem c hx)
      obtain ⟨hI2, hc2, hsum2⟩ :=
        ih hmem' (candStep year month days day (ns, a) c) hI' hc'
      refine ⟨hI2, hc2, ?_⟩
      have hcS : c ∈ S := hmem c (List.mem_cons_self c t)
      have h1 := hsum S hcS
      simp only [List.foldl_cons] at hsum2 ⊢
      omega

/-- One day of the night phase preserves the invariant and commits at
most two new sequence starts over any superset of the candidates. -/
theorem dayStep_good (year month days : Nat) (ns : NState) (day : Nat)
    (hInv : InvN year month days ns) (S : Finset String)
    (hS : ∀ c ∈ night_eligible, c ∈ S) :
    InvN year month days (dayStep year month days ns day) ∧
    totalStarts S (dayStep year month days ns day) ≤ totalStarts S ns + 2 := by
  unfold dayStep
  split_ifs with hsun
  · exact ⟨hInv, by omega⟩
  · have hmem : ∀ c ∈
        sortByKey ns.counts (night_predominant.filter (fun c => night_eligible.contains c)) ++
        sortByKey ns.counts (night_eligible.filter (fun c => !(night_predominant.contains c))),
        c ∈ S := by
      intro c hcmem
      rcases List.mem_append.1 hcmem with h | h
      · have h1 := mem_sortByKey h
        have h2 := (List.mem_filter.1 h1).2
        exact hS c (List.mem_of_elem_eq_true h2)
      · have h1 := mem_sortByKey h
        exact hS c (List.mem_filter.1 h1).1
    obtain ⟨hI, hc, hsum⟩ :=
      foldl_candStep_good year month days day hsun S _ hmem (ns, 0) hInv (by omega)
    have hsum' : totalStarts S _ + 0 = totalStarts S ns + _ := hsum
    exact ⟨hI, by omega⟩

theorem invN_foldl_days (year month days : Nat) (l : List Nat) (st : NState)
    (h : InvN year month days st) :
    InvN year month days (l.foldl (dayStep year month days) st) := by
  induction l generalizing st with
  | nil => exact h
  | cons d t ih =>
      have h1 := (dayStep_good year month days st d h night_eligible.toFinset
        (fun c hc => List.mem_toFinset.mpr hc)).1
      exact ih _ h1


theorem invN_nightPhaseUpTo (year month k : Nat) :
    InvN year month (get_days_in_month year month) (nightPhaseUpTo year month k) :=
  invN_foldl_days year month (get_days_in_month year month) (List.range k) _
    (invN_init year month (get_days_in_month year month))

/-- The completed night phase satisfies the invariant. -/
theorem invN_nightPhase (year month : Nat) :
    InvN year month (get_days_in_month year month) (nightPhase year month) := by
  unfold nightPhase
  exact invN_foldl_days year month (get_days_in_month year month) _ _
    (invN_init year month (get_days_in_month year month))

/-! ## Lookup and roster access lemmas -/


theorem alookup_map_code {α : Type} (f : Staff → α) :
    ∀ (l : List Staff), (l.map (fun s => s.code)).Nodup → ∀ {st : Staff}, st ∈ l →
      alookup (l.map (fun s => (s.code, f s))) st.code = some (f st)
  | [], _, _, h => absurd h (List.not_mem_nil _)
  | t :: ts, hnd, st, hmem => by
      simp only [List.map_cons, alookup]
      by_cases hc : t.code = st.code
      · rw [if_pos hc]
        rcases List.mem_cons.1 hmem with h1 | h1
        · rw [h1]
        · exfalso
          have hmm : st.code ∈ ts.map (fun s => s.code) := List.mem_map.2 ⟨st, h1, rfl⟩
          have hn := (List.nodup_cons.1 hnd).1
          apply hn
          show t.code ∈ ts.map (fun s => s.code)
          rw [hc]
          exact hmm
      · rw [if_neg hc]
        rcases List.mem_cons.1 hmem with h1 | h1
        · exact absurd (congrArg Staff.code h1.symm) hc
        · exact alookup_map_code f ts (List.nodup_cons.1 hnd).2 h1

theorem alookup_map_self {α : Type} (f : String → α) :
    ∀ (l : List String), l.Nodup → ∀ {c : String}, c ∈ l →
      alookup (l.map (fun x => (x, f x))) c = some (f c)
  | [], _, _, h => absurd h (List.not_mem_nil _)
  | t :: ts, hnd, c, hmem => by
      simp only [List.map_cons, alookup]
      by_cases hc : t = c
      · rw [if_pos hc, hc]
      · rw [if_neg hc]
        rcases List.mem_cons.1 hmem with h1 | h1
        · exact absurd h1.symm hc
        · exact alookup_map_self f ts (List.nodup_cons.1 hnd).2 h1

theorem find?_staff_self : ∀ (l : List Staff), (l.map (fun s => s.code)).Nodup →
    ∀ {st : Staff}, st ∈ l → l.find? (fun s => s.code == st.code) = some st
  | [], _, _, h => absurd h (List.not_mem_nil _)
  | t :: ts, hnd, st, hmem => by
      cases hbeq : (t.code == st.code) with
      | true =>
          simp only [List.find?, hbeq]
          rcases List.mem_cons.1 hmem with h1 | h1
          · rw [h1]
          · exfalso
            have hmm : st.code ∈ ts.map (fun s => s.code) := List.mem_map.2 ⟨st, h1, rfl⟩
            have hn := (List.nodup_cons.1 hnd).1
            apply hn
            show t.code ∈ ts.map (fun s => s.code)
            rw [eq_of_beq hbeq]
            exact hmm
      | false =>
          simp only [List.find?, hbeq]
          rcases List.mem_cons.1 hmem with h1 | h1
          · exfalso
            rw [h1] at hbeq
            simp at hbeq
          · exact find?_staff_self ts (List.nodup_cons.1 hnd).2 h1

theorem staff_codes_nodup : (STAFF_DB.map (fun s => s.code)).Nodup := by decide

theorem night_eligible_nodup : night_eligible.Nodup := by decide

theorem get_staff_preference_mem {st : Staff} (hst : st ∈ STAFF_DB) :
    get_staff_preference st.code = st.pref.getD { ptype := "default" } := by
  unfold get_staff_preference
  rw [find?_staff_self STAFF_DB staff_codes_nodup hst]

theorem generate_roster_get (month year d : Nat)
    (hd : d < get_days_in_month year month) :
    (generate month year).roster[d]? =
      some (mkDayEntry (nightPhase year month).sched year month d) := by
  unfold generate
  simp only [List.getElem?_map, List.getElem?_range hd, Option.map_some']

theorem rosterAssign_generate (month year d : Nat)
    (hd : d < get_days_in_month year month) {st : Staff} (hst : st ∈ STAFF_DB) :
    rosterAssign (generate month year) d st.code =
      some (assignFor (nightPhase year month).sched year month d st.code) := by
  unfold rosterAssign
  rw [generate_roster_get month year d hd]
  exact alookup_map_code _ STAFF_DB staff_codes_nodup hst

theorem assignFor_leave {sched : String → Array (Option Duty)}
    {year month day : Nat} {code : String}
    (h : is_on_leave code (mkDate year month (day + 1)) = true) :
    assignFor sched year month day code = Duty.A := by
  unfold assignFor
  simp [h]

theorem assignFor_filled {sched : String → Array (Option Duty)}
    {year month day : Nat} {code : String} {v : Duty}
    (hlv : is_on_leave code (mkDate year month (day + 1)) = false)
    (hcell : cellOf (sched code) day = some v) :
    assignFor sched year month day code = v := by
  unfold assignFor
  simp [hlv, hcell]

theorem assignFor_pref {sched : String → Array (Option Duty)}
    {year month day : Nat} {code : String}
    (hlv : is_on_leave code (mkDate year month (day + 1)) = false)
    (hcell : cellOf (sched code) day = none) :
    assignFor sched year month day code =
      prefAssign (get_staff_preference code) code day
        (decide (5 ≤ (mkDate year month (day + 1)).weekday))
        (decide ((mkDate year month (day + 1)).weekday = 6))
        (decide ((mkDate year month (day + 1)).weekday = 5)) := by
  unfold assignFor
  simp [hlv, hcell]

/-! ## Statistics lemmas -/


theorem sumValues_bump (m : List (Duty × Nat)) (k : Duty) :
    sumValues (bump m k) = sumValues m + 1 := by
  induction m with
  | nil => rfl
  | cons p rest ih =>
      obtain ⟨k', v⟩ := p
      unfold bump
      by_cases hk : k' = k
      · rw [if_pos hk]
        simp [sumValues]
        omega
      · rw [if_neg hk]
        simp only [sumValues, List.map_cons, List.sum_cons] at ih ⊢
        omega

theorem sumValues_foldl_bump (l : List (String × Duty)) (m : List (Duty × Nat)) :
    sumValues (l.foldl (fun acc p => bump acc p.2) m) = sumValues m + l.length := by
  induction l generalizing m with
  | nil => simp
  | cons p t ih =>
      simp only [List.foldl_cons, List.length_cons, ih, sumValues_bump]
      omega

theorem sumValues_shiftCounts (roster : List DayEntry) :
    sumValues (shiftCounts roster) =
      (roster.map (fun de => de.assignments.length)).sum := by
  unfold shiftCounts
  suffices h : ∀ m, sumValues (roster.foldl
      (fun m de => de.assignments.foldl (fun m p => bump m p.2) m) m) =
      sumValues m + (roster.map (fun de => de.assignments.length)).sum by
    simpa [sumValues] using h []
  induction roster with
  | nil => simp
  | cons de t ih =>
      intro m
      simp only [List.foldl_cons, List.map_cons, List.sum_cons, ih, sumValues_foldl_bump]
      omega

theorem mkDayEntry_assignments_length (sched : String → Array (Option Duty))
    (year month day : Nat) :
    (mkDayEntry sched year month day).assignments.length = STAFF_DB.length := by
  simp [mkDayEntry]

theorem sum_lengths_roster (sched : String → Array (Option Duty)) (year month : Nat) :
    ∀ (l : List Nat),
      ((l.map (mkDayEntry sched year month)).map (fun de => de.assignments.length)).sum
        = l.length * STAFF_DB.length
  | [] => by simp
  | d :: t => by
      simp only [List.map_cons, List.sum_cons, List.length_cons,
        mkDayEntry_assignments_length, sum_lengths_roster sched year month t]
      ring

theorem countP_assignments (f : Staff → Duty) (c : String) :
    (STAFF_DB.map (fun s => (s.code, f s))).countP (fun p => p.1 == c) =
      staffCodes.countP (fun x => x == c) := by
  unfold staffCodes
  rw [List.countP_map, List.countP_map]
  rfl

/-- C1: for every month in 1..12 and every year, the generated roster has
exactly `days_in_month` rows, every configured staff code appears exactly
once in every row's assignment table, and the shift-distribution counters
sum to `days_in_month × staff_count`. -/
theorem claim_C1 (month year : Nat) (hm1 : 1 ≤ month) (hm2 : month ≤ 12) :
    (generate month year).roster.length = get_days_in_month year month ∧
    (∀ de ∈ (generate month year).roster, ∀ c ∈ staffCodes,
      de.assignments.countP (fun p => p.1 == c) = 1) ∧
    sumValues (generate month year).shift_distribution =
      get_days_in_month year month * STAFF_DB.length := by
  refine ⟨?_, ?_, ?_⟩
  · show ((List.range (get_days_in_month year month)).map
      (mkDayEntry (nightPhase year month).sched year month)).length = _
    simp
  · intro de hde c hc
    show de.assignments.countP (fun p => p.1 == c) = 1
    have hde' : de ∈ (List.range (get_days_in_month year month)).map
        (mkDayEntry (nightPhase year month).sched year month) := hde
    obtain ⟨d, _, rfl⟩ := List.mem_map.1 hde'
    show (STAFF_DB.map (fun s =>
      (s.code, assignFor (nightPhase year month).sched year month d s.code))).countP
        (fun p => p.1 == c) = 1
    rw [countP_assignments]
    have h1 : staffCodes.count c = 1 :=
      List.count_eq_one_of_mem (by exact staff_codes_nodup) hc
    rw [List.count_eq_countP] at h1
    exact h1
  · show sumValues (shiftCounts ((List.range (get_days_in_month year month)).map
      (mkDayEntry (nightPhase year month).sched year month))) = _
    rw [sumValues_shiftCounts, sum_lengths_roster]
    simp

/-- C2: every committed night-sequence start at day `d` whose three
following days lie in the month and are not overridden by leave shows
exactly `N, N, SD, DO` at days `d .. d+3` in the returned roster. -/
theorem claim_C2 (month year : Nat) {st : Staff} (hst : st ∈ STAFF_DB) (d : Nat)
    (hstart : IsStartP ((nightPhase year month).sched st.code) d)
    (hin : d + 3 < get_days_in_month year month)
    (hlv : ∀ i < 4, is_on_leave st.code (mkDate year month (d + i + 1)) = false) :
    rosterAssign (generate month year) d st.code = some Duty.N ∧
    rosterAssign (generate month year) (d + 1) st.code = some Duty.N ∧
    rosterAssign (generate month year) (d + 2) st.code = some Duty.SD ∧
    rosterAssign (generate month year) (d + 3) st.code = some Duty.DO := by
  have hInv := invN_nightPhase year month
  have hB : Blocky ((nightPhase year month).sched st.code) := (hInv st.code).1.2.1
  obtain ⟨hsz, hb0, hb1, hb2, hb3⟩ := blockAt_of_isStart hB hstart
  have h0 : is_on_leave st.code (mkDate year month (d + 1)) = false := by
    have := hlv 0 (by omega)
    simpa using this
  refine ⟨?_, ?_, ?_, ?_⟩
  · rw [rosterAssign_generate month year d (by omega) hst, assignFor_filled h0 hb0]
  · rw [rosterAssign_generate month year (d + 1) (by omega) hst,
      assignFor_filled (hlv 1 (by omega)) hb1]
  · rw [rosterAssign_generate month year (d + 2) (by omega) hst,
      assignFor_filled (hlv 2 (by omega)) hb2]
  · rw [rosterAssign_generate month year (d + 3) (by omega) hst,
      assignFor_filled (hlv 3 (by omega)) hb3]

/-- C3: a staff member on leave on a date of the generated month is
assigned exactly `A` there, whatever their preference variant or any
night-phase pre-fill. -/
theorem claim_C3 (month year : Nat) {st : Staff} (hst : st ∈ STAFF_DB) (d : Nat)
    (hd : d < get_days_in_month year month)
    (hlv : is_on_leave st.code (mkDate year month (d + 1)) = true) :
    rosterAssign (generate month year) d st.code = some Duty.A := by
  rw [rosterAssign_generate month year d hd hst, assignFor_leave hlv]

/-- C5 (amended): the reported `night_shift_distribution` value of a
night-eligible staff member is twice the number of night-sequence starts
committed for them in that run. -/
theorem claim_C5_amended (month year : Nat) {c : String} (hc : c ∈ night_eligible) :
    alookup (generate month year).night_shift_distribution c =
      some (2 * numStarts ((nightPhase year month).sched c)) := by
  have hInv := invN_nightPhase year month
  show alookup (night_eligible.map (fun x => (x, (nightPhase year month).counts x))) c = _
  rw [alookup_map_self _ night_eligible night_eligible_nodup hc, (hInv c).2]

/-- C7: on any processed day, the night phase commits at most two new
sequence starts, and a candidate whose cell is already pre-filled (a
continuation day of an earlier sequence) leaves the per-day state —
including the 2-slot commitment counter — unchanged. -/
theorem claim_C7 (month year day : Nat) (S : Finset String)
    (hS : ∀ c ∈ night_eligible, c ∈ S) :
    totalStarts S (dayStep year month (get_days_in_month year month)
        (nightPhaseUpTo year month day) day)
      ≤ totalStarts S (nightPhaseUpTo year month day) + 2 ∧
    (∀ (st : NState × Nat) (cand : String),
      cellOf (st.1.sched cand) day ≠ none →
      candStep year month (get_days_in_month year month) day st cand = st) := by
  constructor
  · exact (dayStep_good year month _ (nightPhaseUpTo year month day) day
      (invN_nightPhaseUpTo year month day) S hS).2
  · intro st cand hcell
    unfold candStep
    split_ifs with h1 h2 h3 h4 h5 <;> first
      | rfl
      | exact absurd hcell h3

/-- C8: no night-sequence start is committed on a Sunday, and none is
committed with its fourth day past the end of the month. -/
theorem claim_C8 (month year : Nat) (c : String) (d : Nat)
    (h : IsStartP ((nightPhase year month).sched c) d) :
    (mkDate year month (d + 1)).weekday ≠ 6 ∧
      d + 3 < get_days_in_month year month := by
  have hInv := invN_nightPhase year month
  refine ⟨(hInv c).1.2.2 d h, ?_⟩
  have hb := blockAt_of_isStart (hInv c).1.2.1 h
  have h1 := hb.1
  rw [(hInv c).1.1] at h1
  exact h1

/-- C10: the Sunday skip only prevents processing on Sundays; the cells
written by a start flow into Sundays unimpeded — every start places
`N, SD, DO` on days `d+1 .. d+3` whatever their weekday, and the
February 2026 roster indeed holds an `N` on a Sunday. -/
theorem claim_C10 :
    (∀ month year : Nat, ∀ c : String, ∀ d : Nat,
      IsStartP ((nightPhase year month).sched c) d →
      cellOf ((nightPhase year month).sched c) (d + 1) = some Duty.N ∧
      cellOf ((nightPhase year month).sched c) (d + 2) = some Duty.SD ∧
      cellOf ((nightPhase year month).sched c) (d + 3) = some Duty.DO) ∧
    ((generate 2 2026).roster[7]?).map (fun de => de.is_sunday) = some true ∧
    rosterAssign (generate 2 2026) 7 "JISKAKA" = some Duty.N := by
  refine ⟨?_, ?_, ?_⟩
  · intro month year c d h
    have hInv := invN_nightPhase year month
    have hb := blockAt_of_isStart (hInv c).1.2.1 h
    exact ⟨hb.2.2.1, hb.2.2.2.1, hb.2.2.2.2⟩
  · decide
  · decide


theorem leb_iff (a b : Date) : a.leb b = true ↔ Date.Le a b := by
  unfold Date.leb Date.Le
  simp

theorem leaveHit_iff (c : String) (d : Date) (e : LeaveEntry) :
    leaveHit c d e = true ↔ (e.code = c ∧
      ((Date.Le e.start d ∧ Date.Le d e.stop) ∨
        (e.stop.year < e.start.year ∧ (Date.Le e.start d ∨ Date.Le d e.stop)))) := by
  unfold leaveHit
  simp [leb_iff]

/-- C4: `is_on_leave` is true exactly when some leave record for the
code contains the date (inclusive), or is a year-wrap sentinel
(`start.year > end.year`) with the date on or after the start or on or
before the end; a code with no leave records always yields `false`. -/
theorem claim_C4 (c : String) (d : Date) :
    (is_on_leave c d = true ↔ ∃ e ∈ LEAVE_2026, e.code = c ∧
      ((Date.Le e.start d ∧ Date.Le d e.stop) ∨
        (e.stop.year < e.start.year ∧ (Date.Le e.start d ∨ Date.Le d e.stop)))) ∧
    ((∀ e ∈ LEAVE_2026, e.code ≠ c) → is_on_leave c d = false) := by
  constructor
  · unfold is_on_leave
    rw [List.any_eq_true]
    constructor
    · rintro ⟨e, he, hhit⟩
      exact ⟨e, he, (leaveHit_iff c d e).1 hhit⟩
    · rintro ⟨e, he, hcond⟩
      exact ⟨e, he, (leaveHit_iff c d e).2 hcond⟩
  · intro h
    unfold is_on_leave
    rw [List.any_eq_false]
    intro e he
    intro hhit
    exact h e he ((leaveHit_iff c d e).1 hhit).1

/-- C4 witness: the `JISKAKA` record (2026-12-08 .. 2027-07-18) marks
2026-12-25 as on-leave, and an unknown code is never on leave. -/
theorem claim_C4_witness :
    is_on_leave "JISKAKA" ⟨2026, 12, 25⟩ = true ∧
    is_on_leave "NOBODY" ⟨2026, 12, 25⟩ = false := by
  constructor
  · exact (claim_C4 "JISKAKA" ⟨2026, 12, 25⟩).1.2
      ⟨⟨"JISKAKA", ⟨2026, 12, 8⟩, ⟨2027, 7, 18⟩⟩, by decide, by decide⟩
  · exact (claim_C4 "NOBODY" ⟨2026, 12, 25⟩).2 (by decide)

/-- C9: an `emd_predominant` staff member whose designated weekend day is
not Sunday receives, on a Sunday without leave and without night-phase
pre-fill, the weekday `OH+EMD`/`OH` alternation (period 4 when flagged
for night EMD and night-eligible, period 2 otherwise) — not the Saturday
`DO` rule. -/
theorem claim_C9 (month year day : Nat) {st : Staff} (hst : st ∈ STAFF_DB)
    {p : ShiftPref} (hp : st.pref = some p) (hty : p.ptype = "emd_predominant")
    (hwd : p.weekend_day ≠ some "Sunday")
    (hd : day < get_days_in_month year month)
    (hsun : (mkDate year month (day + 1)).weekday = 6)
    (hlv : is_on_leave st.code (mkDate year month (day + 1)) = false)
    (hcell : cellOf ((nightPhase year month).sched st.code) day = none) :
    rosterAssign (generate month year) day st.code =
      some (if p.night_emd ∧ night_eligible.contains st.code then
              (if day % 4 = 0 then Duty.OH_EMD else Duty.OH)
            else (if day % 2 = 0 then Duty.OH_EMD else Duty.OH)) := by
  rw [rosterAssign_generate month year day hd hst, assignFor_pref hlv hcell]
  rw [get_staff_preference_mem hst, hp]
  show some (prefAssign p st.code day _ _ _) = _
  unfold prefAssign
  rw [hty]
  rw [if_neg (by decide), if_neg (by decide), if_neg (by decide), if_pos rfl]
  rw [hsun]
  rw [if_neg (by
    rintro ⟨_, hw⟩
    exact hwd hw)]
  rw [if_neg (by simp)]

/-! ## Validator lemmas -/

theorem foldl_append_flatten {α β : Type} (g : α → List β) :
    ∀ (l : List α) (acc : List β),
      l.foldl (fun a p => a ++ g p) acc = acc ++ (l.map g).flatten
  | [], acc => by simp
  | p :: t, acc => by
      simp only [List.foldl_cons, List.map_cons, List.flatten_cons,
        foldl_append_flatten g t (acc ++ g p)]
      simp

theorem dayViolations_eq_flatten (roster : List VDay) (day_idx : Nat) (day : VDay) :
    dayViolations roster day_idx day =
      (day.assignments.map (cellViol roster day_idx day)).flatten := by
  unfold dayViolations
  rw [foldl_append_flatten]
  simp

theorem staff_of_mem_cellViol {roster : List VDay} {day_idx : Nat} {day : VDay}
    {p : String × String} {v : Violation} (h : v ∈ cellViol roster day_idx day p) :
    v.staff = p.1 := by
  unfold cellViol at h
  split_ifs at h with h1 h2
  · rcases List.mem_singleton.1 h with rfl
    rfl
  · exact absurd h (List.not_mem_nil v)
  · exact absurd h (List.not_mem_nil v)

/-- A cell of a staff code other than `c` never contributes a violation
citing `c`. -/
theorem cellViol_filter_other {roster : List VDay} {day_idx : Nat} {day : VDay}
    {p : String × String} {c : String} (h : p.1 ≠ c) :
    (cellViol roster day_idx day p).filter (fun v => v.staff == c) = [] := by
  rw [List.filter_eq_nil_iff]
  intro v hv
  rw [staff_of_mem_cellViol hv]
  simpa using h

theorem alookup_some_lt {g : List VDay} {j : Nat} {c x : String}
    (h : alookup (g.getD j ⟨"", []⟩).assignments c = some x) : j < g.length := by
  by_contra hc
  rw [List.getD_eq_getElem?_getD, List.getElem?_eq_none (by omega)] at h
  exact Option.noConfusion h

theorem filter_flatten_cellViol_none {roster : List VDay} {day_idx : Nat}
    {day : VDay} {c : String} :
    ∀ {l : List (String × String)}, (∀ p ∈ l, p.1 ≠ c) →
      ((l.map (cellViol roster day_idx day)).flatten.filter
        (fun v => v.staff == c)) = []
  | [], _ => rfl
  | p :: t, h => by
      simp only [List.map_cons, List.flatten_cons, List.filter_append]
      rw [cellViol_filter_other (h p (List.mem_cons_self p t)),
        filter_flatten_cellViol_none (fun q hq => h q (List.mem_cons_of_mem p hq))]
      rfl

theorem cellViol_filter_self {roster : List VDay} {day_idx : Nat} {day : VDay}
    {c : String} {v : String} :
    (cellViol roster day_idx day (c, v)).filter (fun v => v.staff == c) =
      cellViol roster day_idx day (c, v) := by
  rw [List.filter_eq_self]
  intro x hx
  rw [staff_of_mem_cellViol hx]
  simp

/-- Under unique keys, the violations of a day citing staff `c` are
exactly the violations of `c`'s own cell. -/
theorem dayViolations_filter_of_lookup {g : List VDay} {i : Nat} {c : String}
    (day : VDay) (hnd : (day.assignments.map Prod.fst).Nodup)
    (hval : alookup day.assignments c = some "N") :
    (dayViolations g i day).filter (fun v => v.staff == c) =
      cellViol g i day (c, "N") := by
  rw [dayViolations_eq_flatten]
  have main : ∀ (l : List (String × String)), (l.map Prod.fst).Nodup →
      alookup l c = some "N" →
      ((l.map (cellViol g i day)).flatten.filter (fun v => v.staff == c)) =
        cellViol g i day (c, "N") := by
    intro l
    induction l with
    | nil => intro _ h; exact absurd h (by simp [alookup])
    | cons p t ih =>
        intro hnd2 hval2
        obtain ⟨k, v⟩ := p
        simp only [List.map_cons, List.flatten_cons, List.filter_append]
        by_cases hk : k = c
        · subst hk
          have hv : v = "N" := by
            have h4 : alookup ((k, v) :: t) k = some v := by
              simp [alookup]
            rw [hval2] at h4
            exact (Option.some.inj h4).symm
          subst hv
          have hknotin : ∀ q ∈ t, q.1 ≠ k := by
            intro q hq hqc
            have hin : k ∈ t.map Prod.fst := by
              rw [← hqc]
              exact List.mem_map.2 ⟨q, hq, rfl⟩
            exact (List.nodup_cons.1 hnd2).1 hin
          rw [cellViol_filter_self, filter_flatten_cellViol_none hknotin]
          simp
        · have hval3 : alookup t c = some "N" := by
            have : alookup ((k, v) :: t) c = alookup t c := by
              simp [alookup, hk]
            rw [← this, hval2]
          rw [cellViol_filter_other hk, ih (List.nodup_cons.1 hnd2).2 hval3]
          rfl
  exact main day.assignments hnd hval


/-- C6 counterexample: the grid `cexGrid` contains, for staff `X`, a day
assigned `N` whose next three days are exactly `N, SD, DO` — yet
`validate_roster` with the `night_pattern` rule reports one violation
for `X`, not zero. -/
theorem claim_C6_counterexample :
    alookup (cexGrid.getD 0 ⟨"", []⟩).assignments "X" = some "N" ∧
    alookup (cexGrid.getD 1 ⟨"", []⟩).assignments "X" = some "N" ∧
    alookup (cexGrid.getD 2 ⟨"", []⟩).assignments "X" = some "SD" ∧
    alookup (cexGrid.getD 3 ⟨"", []⟩).assignments "X" = some "DO" ∧
    ((validate_roster cexGrid ["night_pattern"]).violations.filter
      (fun v => v.staff == "X")).length = 1 := by
  decide

/-- C6 (amended): the `night_pattern` examination of the `N` day itself
is clean when the three following days read `N, SD, DO`, and changing
the third following day to `OH` makes that same examination produce
exactly one violation citing that staff and that day's date. -/
theorem claim_C6_amended (g g' : List VDay) (i : Nat) (c : String)
    (hnd : ((g.getD i ⟨"", []⟩).assignments.map Prod.fst).Nodup)
    (h0 : alookup (g.getD i ⟨"", []⟩).assignments c = some "N")
    (h1 : alookup (g.getD (i + 1) ⟨"", []⟩).assignments c = some "N")
    (h2 : alookup (g.getD (i + 2) ⟨"", []⟩).assignments c = some "SD")
    (h3 : alookup (g.getD (i + 3) ⟨"", []⟩).assignments c = some "DO")
    (hnd' : ((g'.getD i ⟨"", []⟩).assignments.map Prod.fst).Nodup)
    (h0' : alookup (g'.getD i ⟨"", []⟩).assignments c = some "N")
    (h1' : alookup (g'.getD (i + 1) ⟨"", []⟩).assignments c = some "N")
    (h2' : alookup (g'.getD (i + 2) ⟨"", []⟩).assignments c = some "SD")
    (h3' : alookup (g'.getD (i + 3) ⟨"", []⟩).assignments c = some "OH") :
    (dayViolations g i (g.getD i ⟨"", []⟩)).filter (fun v => v.staff == c) = [] ∧
    (dayViolations g' i (g'.getD i ⟨"", []⟩)).filter (fun v => v.staff == c) =
      [{ vtype := "night_pattern", staff := c, date := (g'.getD i ⟨"", []⟩).date,
         expected := "N,SD,DO", actual := "N,SD,OH" }] := by
  constructor
  · rw [dayViolations_filter_of_lookup _ hnd h0]
    unfold cellViol
    rw [if_pos ⟨rfl, alookup_some_lt h3⟩, if_neg (by
      rw [h1, h2, h3]
      simp)]
  · rw [dayViolations_filter_of_lookup _ hnd' h0']
    unfold cellViol
    rw [if_pos ⟨rfl, alookup_some_lt h3'⟩, if_pos (by
      rw [h1', h2', h3']
      constructor
      · simp
      · simp)]
    rw [h1', h2', h3']
    rfl

/-- C6 witness: the amended statement at a concrete pair of grids. -/
theorem claim_C6_witness :
    (dayViolations
        [⟨"d1", [("X", "N")]⟩, ⟨"d2", [("X", "N")]⟩,
         ⟨"d3", [("X", "SD")]⟩, ⟨"d4", [("X", "DO")]⟩] 0
        ⟨"d1", [("X", "N")]⟩).filter (fun v => v.staff == "X") = [] ∧
    (dayViolations
        [⟨"d1", [("X", "N")]⟩, ⟨"d2", [("X", "N")]⟩,
         ⟨"d3", [("X", "SD")]⟩, ⟨"d4", [("X", "OH")]⟩] 0
        ⟨"d1", [("X", "N")]⟩).filter (fun v => v.staff == "X") =
      [{ vtype := "night_pattern", staff := "X", date := "d1",
         expected := "N,SD,DO", actual := "N,SD,OH" }] :=
  claim_C6_amended
    [⟨"d1", [("X", "N")]⟩, ⟨"d2", [("X", "N")]⟩,
     ⟨"d3", [("X", "SD")]⟩, ⟨"d4", [("X", "DO")]⟩]
    [⟨"d1", [("X", "N")]⟩, ⟨"d2", [("X", "N")]⟩,
     ⟨"d3", [("X", "SD")]⟩, ⟨"d4", [("X", "OH")]⟩]
    0 "X" (by decide) (by decide) (by decide) (by decide) (by decide)
    (by decide) (by decide) (by decide) (by decide) (by decide)

/-- C1 witness: the theorem instantiated at February 2026. -/
theorem claim_C1_witness :
    (generate 2 2026).roster.length = get_days_in_month 2026 2 ∧
    sumValues (generate 2 2026).shift_distribution =
      get_days_in_month 2026 2 * STAFF_DB.length := by
  obtain ⟨h1, _, h3⟩ := claim_C1 2 2026 (by decide) (by decide)
  exact ⟨h1, h3⟩

/-- C2 witness: the night-sequence start committed for `MIK` at day
index 1 of February 2026 shows `N, N, SD, DO` in the roster. -/
theorem claim_C2_witness :
    IsStartP ((nightPhase 2026 2).sched "MIK") 1 ∧
    rosterAssign (generate 2 2026) 1 "MIK" = some Duty.N ∧
    rosterAssign (generate 2 2026) 2 "MIK" = some Duty.N ∧
    rosterAssign (generate 2 2026) 3 "MIK" = some Duty.SD ∧
    rosterAssign (generate 2 2026) 4 "MIK" = some Duty.DO := by
  have h := @claim_C2 2 2026
    ⟨"MIK", true, some ⟨"emd_predominant", none, false, true⟩⟩ (by decide) 1
    (by decide) (by decide) (by decide)
  exact ⟨by decide, h.1, h.2.1, h.2.2.1, h.2.2.2⟩

/-- C3 witness: `VALENT` is on leave on 2026-04-10 and is assigned `A`
there. -/
theorem claim_C3_witness :
    is_on_leave "VALENT" (mkDate 2026 4 10) = true ∧
    rosterAssign (generate 4 2026) 9 "VALENT" = some Duty.A := by
  refine ⟨by decide, ?_⟩
  exact @claim_C3 4 2026
    ⟨"VALENT", false, some ⟨"pm_predominant", none, false, false⟩⟩
    (by decide) 9 (by decide) (by decide)

/-- C5 counterexample: for February 2026 the reported value for `MIK` is
12, while only 6 night-sequence starts are committed for `MIK` in that
run — the reported value is not the number of starts. -/
theorem claim_C5_counterexample :
    alookup (generate 2 2026).night_shift_distribution "MIK" = some 12 ∧
    numStarts ((nightPhase 2026 2).sched "MIK") = 6 :=
  ⟨by decide, by decide⟩

/-- C5 witness: the amended theorem instantiated for `GOD` in February
2026. -/
theorem claim_C5_witness :
    alookup (generate 2 2026).night_shift_distribution "GOD" =
      some (2 * numStarts ((nightPhase 2026 2).sched "GOD")) :=
  claim_C5_amended 2 2026 (by decide)

/-- C7 witness: the per-day start bound instantiated at day index 1 of
February 2026 over the night-eligible staff. -/
theorem claim_C7_witness :
    totalStarts night_eligible.toFinset (dayStep 2026 2 (get_days_in_month 2026 2)
        (nightPhaseUpTo 2026 2 1) 1)
      ≤ totalStarts night_eligible.toFinset (nightPhaseUpTo 2026 2 1) + 2 :=
  (claim_C7 2 2026 1 night_eligible.toFinset
    (fun c hc => List.mem_toFinset.mpr hc)).1

/-- C8 witness: the start committed for `MIK` at day index 5 of February
2026 is not on a Sunday and fits in the month. -/
theorem claim_C8_witness :
    IsStartP ((nightPhase 2026 2).sched "MIK") 5 ∧
    (mkDate 2026 2 6).weekday ≠ 6 ∧ 5 + 3 < get_days_in_month 2026 2 := by
  have h := claim_C8 2 2026 "MIK" 5 (by decide)
  exact ⟨by decide, h.1, h.2⟩

/-- C9 witness: `FRANK` (emd_predominant, no designated Sunday, no night
flag) receives `OH` on Sunday 2026-02-08 (odd day index 7). -/
theorem claim_C9_witness :
    (mkDate 2026 2 8).weekday = 6 ∧
    rosterAssign (generate 2 2026) 7 "FRANK" = some Duty.OH := by
  refine ⟨by decide, ?_⟩
  have h := @claim_C9 2 2026 7
    ⟨"FRANK", false, some ⟨"emd_predominant", none, false, false⟩⟩ (by decide)
    ⟨"emd_predominant", none, false, false⟩ rfl rfl (by simp) (by decide)
    (by decide) (by decide) (by decide)
  simpa using h

/-- C10 witness: `JISKAKA` starts a sequence on Saturday 2026-02-07 (day
index 6), so the following Sunday cell holds `N`. -/
theorem claim_C10_witness :
    IsStartP ((nightPhase 2026 2).sched "JISKAKA") 6 ∧
    cellOf ((nightPhase 2026 2).sched "JISKAKA") 7 = some Duty.N := by
  refine ⟨by decide, ?_⟩
  exact (claim_C10.1 2 2026 "JISKAKA" 6 (by decide)).1
